import Mathlib

/-!
Shallow embedding of the TextCorrector spelling engine
(src/backend/spell_checker.py, src/utils/text_utils.py,
src/utils/dict_loader.py), together with theorems settling the frozen
claims about the natural-language specification.

Strings are modelled through their character lists; Python's
whitespace-driven primitives (str.split(), str.strip(), re.sub over \s)
are embedded as recursive functions over List Char restricted to ASCII
whitespace, and Python's str.lower() is modelled by ASCII Char.toLower,
which agrees with it on all inputs the engine feeds it (the dictionary
and tokens are ASCII).
-/

namespace TextCorrector

/-- ASCII whitespace characters, modelling the class matched by Python's
str.split(), str.strip() and the regex \s on the engine's inputs. -/
def isWs (c : Char) : Bool :=
  c = ' ' || c = '\t' || c = '\n' || c = '\r' || c = Char.ofNat 11 || c = Char.ofNat 12

/-- Negation of isWs, used as the run predicate of word splitting. -/
def notWs (c : Char) : Bool := !(isWs c)

/-- Fuel-indexed splitter: structural recursion on the fuel, which is
always at least the length of the list. -/
def wsplitF : Nat → List Char → List (List Char)
  | _, [] => []
  | 0, _ :: _ => []
  | Nat.succ n, c :: cs =>
    if isWs c then wsplitF n cs
    else (c :: cs.takeWhile notWs) :: wsplitF n (cs.dropWhile notWs)

/-- Python str.split() on character lists: the maximal runs of
non-whitespace characters, in order, with no empty runs. -/
def wsplit (l : List Char) : List (List Char) := wsplitF l.length l

/-- Python " ".join on character lists: interleave a single space. -/
def joinSp : List (List Char) → List Char
  | [] => []
  | [w] => w
  | w :: ws => w ++ ' ' :: joinSp ws

/-- Python str.split() at the String level. -/
def pysplit (s : String) : List String := (wsplit s.data).map (fun l => ⟨l⟩)

/-- Python " ".join at the String level, modelling join_words in
src/utils/text_utils.py. -/
def join_words (ws : List String) : String := ⟨joinSp (ws.map String.data)⟩

/-- Python str.strip() on character lists: drop whitespace from both ends. -/
def pystrip (l : List Char) : List Char :=
  ((l.dropWhile isWs).reverse.dropWhile isWs).reverse

/-- Fuel-indexed whitespace collapsing, structural on the fuel. -/
def collapseWsF : Nat → List Char → List Char
  | _, [] => []
  | 0, _ :: _ => []
  | Nat.succ n, c :: cs =>
    if isWs c then ' ' :: collapseWsF n (cs.dropWhile isWs)
    else c :: collapseWsF n cs

/-- Collapse every maximal whitespace run to a single space, modelling
re.sub applied to the one-or-more-whitespace pattern in clean_spaces. -/
def collapseWs (l : List Char) : List Char := collapseWsF l.length l

/-- clean_spaces from src/utils/text_utils.py: strip the ends, then
collapse every internal whitespace run to one space. -/
def clean_spaces (s : String) : String := ⟨collapseWs (pystrip s.data)⟩

/-- to_lowercase from src/utils/text_utils.py, Python str.lower()
modelled on ASCII by Char.toLower. -/
def to_lowercase (s : String) : String := ⟨s.data.map Char.toLower⟩

/-- ASCII letter test, the character class a-zA-Z of split_words. -/
def isAsciiAlpha (c : Char) : Bool :=
  ('a' ≤ c && c ≤ 'z') || ('A' ≤ c && c ≤ 'Z')

/-- ASCII lowercase letter test. -/
def isLowerAlpha (c : Char) : Bool := 'a' ≤ c && c ≤ 'z'

/-- Replace every character that is neither an ASCII letter nor
whitespace by a space: re.sub of the negated class in split_words. -/
def subNonAlpha (l : List Char) : List Char :=
  l.map (fun c => if isAsciiAlpha c || isWs c then c else ' ')

/-- split_words from src/utils/text_utils.py: replace non-letter,
non-whitespace characters by spaces, then split on whitespace. -/
def split_words (s : String) : List String :=
  (wsplit (subNonAlpha s.data)).map (fun l => ⟨l⟩)

/-- The ASCII apostrophe character. -/
def apos : Char := Char.ofNat 39

/-- The canonical right single quote U+2019. -/
def rsq : Char := '’'

/-- Membership in the curly single-quote class of the first regex of
fix_special_cases (U+2018 and U+2019). -/
def isCurly (c : Char) : Bool := c = '‘' || c = '’'

/-- Membership in the ASCII apostrophe class of the second regex of
fix_special_cases. -/
def isApos (c : Char) : Bool := c = apos

/-- Fuel-indexed run collapsing, structural on the fuel. -/
def subRuns2F (cls : Char → Bool) (rep : Char) : Nat → List Char → List Char
  | _, [] => []
  | 0, _ :: _ => []
  | Nat.succ n, c :: cs =>
    if cls c then
      if (cs.takeWhile cls).isEmpty then c :: subRuns2F cls rep n cs
      else rep :: subRuns2F cls rep n (cs.dropWhile cls)
    else c :: subRuns2F cls rep n cs

/-- Greedy re.sub of a two-or-more run of a character class by a single
replacement character: a maximal run of length at least two of cls
characters becomes one rep, a lone cls character is kept. -/
def subRuns2 (cls : Char → Bool) (rep : Char) (l : List Char) : List Char :=
  subRuns2F cls rep l.length l

/-- The per-word body of fix_special_cases: first collapse runs of two
or more curly single quotes to ’, then collapse runs of two or more
ASCII apostrophes to ’, in that order. -/
def fixWord (w : List Char) : List Char :=
  subRuns2 isApos rsq (subRuns2 isCurly rsq w)

/-- The word loop of fix_special_cases: apply fixWord to every
whitespace-delimited segment and record a change pair whenever the
segment was rewritten. -/
def fixLoop : List (List Char) → List (List Char) × List (String × String)
  | [] => ([], [])
  | w :: ws =>
    let fixed := fixWord w
    let rest := fixLoop ws
    (fixed :: rest.1,
      (if fixed ≠ w then [((⟨w⟩ : String), (⟨fixed⟩ : String))] else []) ++ rest.2)

/-- fix_special_cases from src/backend/spell_checker.py: split on
whitespace, repair doubled quotes per segment, rejoin with single
spaces, and return the list of (original, fixed) changes. -/
def fix_special_cases (s : String) : String × List (String × String) :=
  let r := fixLoop (wsplit s.data)
  (⟨joinSp r.1⟩, r.2)

/-- Deduplicating insertion modelling Python set.add on a list kept in
insertion order. -/
def addWord (ws : List String) (w : String) : List String :=
  if w ∈ ws then ws else ws ++ [w]

/-- The line loop of load_dictionary: strip and lowercase each line,
and add it to the word set when nonempty. -/
def loadLines (acc : List String) : List String → List String
  | [] => acc
  | line :: rest =>
    let word : String := ⟨(pystrip line.data).map Char.toLower⟩
    loadLines (if word ≠ "" then addWord acc word else acc) rest

/-- load_dictionary from src/utils/dict_loader.py. The source is
modelled as Option (List String): some lines is a readable file with
those lines, none is an unreadable source (missing file or I/O error),
for which the Python code catches the exception and returns the empty
set. In the repository file the line words.add(word) is not indented
under the guard if word: (an IndentationError as written); this
embedding follows the evident intent stated by the adjacent comment,
with the add guarded by the nonemptiness test. -/
def load_dictionary : Option (List String) → List String
  | none => []
  | some lines => loadLines [] lines

/-- A frequency dictionary: association list from words to positive
frequencies (absent words have frequency 0). -/
def Dict : Type := List (String × Nat)

/-- Frequency of a word in a Dict, 0 when absent. -/
def freq (d : Dict) (w : String) : Nat :=
  match List.find? (fun p => p.1 == w) d with
  | some p => p.2
  | none => 0

/-- Dictionary membership: positive frequency. -/
def dContains (d : Dict) (w : String) : Bool := freq d w != 0

/-- The 26 lowercase letters used by candidate generation. -/
def alphabet : List Char := "abcdefghijklmnopqrstuvwxyz".data

/-- Modelled from the spec: single-character deletions (the third-party
SpellChecker library that performs candidate generation in the source
is not part of this repository; sections 4.4 and 9 of the spec define
the bounded edit-distance replacement embedded here). -/
def deletes (w : List Char) : List (List Char) :=
  (List.range w.length).map (fun i => w.take i ++ w.drop (i + 1))

/-- Modelled from the spec: adjacent transpositions. -/
def transposes (w : List Char) : List (List Char) :=
  (List.range (w.length - 1)).map
    (fun i => w.take i ++ ((w.drop i).take 2).reverse ++ w.drop (i + 2))

/-- Modelled from the spec: single-character substitutions by each
lowercase letter. -/
def replaces (w : List Char) : List (List Char) :=
  (List.range w.length).flatMap
    (fun i => alphabet.map (fun c => w.take i ++ c :: w.drop (i + 1)))

/-- Modelled from the spec: single-character insertions of each
lowercase letter at each position. -/
def inserts (w : List Char) : List (List Char) :=
  (List.range (w.length + 1)).flatMap
    (fun i => alphabet.map (fun c => w.take i ++ c :: w.drop i))

/-- Modelled from the spec: all strings reachable by exactly one edit
(deletion, adjacent transposition, substitution, insertion). -/
def edits1 (w : List Char) : List (List Char) :=
  deletes w ++ transposes w ++ replaces w ++ inserts w

/-- Modelled from the spec: one-edit expansions of every one-edit
expansion of the token. -/
def edits2 (w : List Char) : List (List Char) := (edits1 w).flatMap edits1

/-- Modelled from the spec: the generated strings that are present in
the dictionary, as a deduplicated candidate list. -/
def known (d : Dict) (cs : List (List Char)) : List String :=
  ((cs.map (fun l => (⟨l⟩ : String))).filter (fun w => dContains d w)).dedup

/-- Modelled from the spec: staged candidate search, distance-1
candidates taking precedence over distance-2 candidates. -/
def candidates (d : Dict) (w : String) : List String :=
  let c1 := known d (edits1 w.data)
  if c1 ≠ [] then c1 else known d (edits2 w.data)

/-- Lexicographic comparison of character lists by code point, the
ascending candidate order of the ranker. -/
def charsLt : List Char → List Char → Bool
  | [], [] => false
  | [], _ :: _ => true
  | _ :: _, [] => false
  | a :: as, b :: bs =>
    if a < b then true
    else if b < a then false
    else charsLt as bs

/-- Lexicographic strict order on strings. -/
def strLt (a b : String) : Bool := charsLt a.data b.data

/-- Modelled from the spec: the ranker keeps the candidate with the
higher frequency, breaking ties by ascending lexicographic order. -/
def pickBetter (d : Dict) (b c : String) : String :=
  if freq d c > freq d b ∨ (freq d c = freq d b ∧ strLt c b = true) then c else b

/-- Modelled from the spec: rank a candidate list, returning none when
it is empty. -/
def rank (d : Dict) (cs : List String) : Option String :=
  cs.foldl
    (fun best c =>
      match best with
      | none => some c
      | some b => some (pickBetter d b c))
    none

/-- Modelled from the spec: spell.correction of the source, the best
in-dictionary candidate of the token, none when there is none. -/
def correction (d : Dict) (w : String) : Option String := rank d (candidates d w)

/-- Modelled from the spec: spell.unknown of the source, the set of
input tokens absent from the dictionary. -/
def unknown (d : Dict) (ws : List String) : List String :=
  (ws.filter (fun w => !dContains d w)).dedup

/-- The per-token body of the correction loop of correct_text: a
misspelled token is replaced by its correction when that correction is
truthy (nonempty) and differs from the token, recording the fix. -/
def correctToken (d : Dict) (mis : List String) (w : String) :
    String × Option (String × String) :=
  if w ∈ mis then
    match correction d w with
    | some c => if c ≠ "" ∧ c ≠ w then (c, some (w, c)) else (w, none)
    | none => (w, none)
  else (w, none)

/-- The correction loop of correct_text: emitted tokens in order plus
the spelling fixes in order. -/
def correctLoop (d : Dict) (mis : List String) :
    List String → List String × List (String × String)
  | [] => ([], [])
  | w :: ws =>
    let t := correctToken d mis w
    let rest := correctLoop d mis ws
    (t.1 :: rest.1,
      (match t.2 with | some p => [p] | none => []) ++ rest.2)

/-- The result quadruple of correct_text as a record: corrected text,
mistake count, misspelled tokens, and all fixes. -/
structure CorrectionResult where
  corrected_text : String
  mistake_count : Nat
  misspelled : List String
  all_fixes : List (String × String)
deriving DecidableEq, Repr

/-- The token sequence correct_text feeds to the spell checker: quote
repair, then clean_spaces, then to_lowercase, then split_words. -/
def tokensOf (text : String) : List String :=
  split_words (to_lowercase (clean_spaces (fix_special_cases text).1))

/-- correct_text of src/backend/spell_checker.py with the dictionary
already loaded: quote repair, normalization, then the per-token
spell-check loop, reassembled with single spaces. -/
def correct_words (d : Dict) (text : String) : CorrectionResult :=
  let quote := fix_special_cases text
  let words := tokensOf text
  let mis := unknown d words
  let loop := correctLoop d mis words
  { corrected_text := join_words loop.1
    mistake_count := mis.length
    misspelled := mis
    all_fixes := quote.2 ++ loop.2 }

/-- correct_text taking the dictionary source: load the dictionary
(each loaded word at frequency 1, as spell.word_frequency.load_words
gives a set of fresh words) and run the engine. -/
def correct_text (src : Option (List String)) (text : String) : CorrectionResult :=
  correct_words ((load_dictionary src).map (fun w => (w, 1))) text

/-- The emitted token sequence of the correction loop of correct_text,
in input order. -/
def outTokens (d : Dict) (raw : String) : List String :=
  (correctLoop d (unknown d (tokensOf raw)) (tokensOf raw)).1

/-- Positionwise relation between the i-th normalized input token and
the i-th emitted token: the output token is the input token or its
chosen correction, and an in-dictionary or correction-less token passes
through unchanged. -/
def TokOk (d : Dict) (raw : String) (i : Nat) : Prop :=
  ((outTokens d raw).getD i "" = (tokensOf raw).getD i "" ∨
    correction d ((tokensOf raw).getD i "") = some ((outTokens d raw).getD i "")) ∧
  (dContains d ((tokensOf raw).getD i "") = true →
    (outTokens d raw).getD i "" = (tokensOf raw).getD i "") ∧
  (correction d ((tokensOf raw).getD i "") = none →
    (outTokens d raw).getD i "" = (tokensOf raw).getD i "")

/-- The failure surfaced on empty input, named as in the spec; the CLI
realizes it as the message No input text. and exit status 1. -/
inductive CorrError where
  | EmptyInputError
deriving DecidableEq, Repr

/-- The guarded entry point of main in src/backend/spell_checker.py:
empty or whitespace-only raw text is rejected before correct_text runs. -/
def run (src : Option (List String)) (raw : String) :
    Except CorrError CorrectionResult :=
  if raw = "" ∨ (⟨pystrip raw.data⟩ : String) = "" then
    Except.error CorrError.EmptyInputError
  else
    Except.ok (correct_text src raw)

/-! Unfolding equations for the fuel-indexed functions: the fuel is
irrelevant as soon as it covers the length of the list, so the
definitions satisfy the recurrences of the corresponding Python loops. -/

theorem wsplitF_congr :
    ∀ (n m : Nat) (l : List Char), l.length ≤ n → l.length ≤ m →
      wsplitF n l = wsplitF m l := by
  intro n
  induction n with
  | zero =>
    intro m l hn hm
    cases l with
    | nil => cases m <;> rfl
    | cons c cs => simp at hn
  | succ n ih =>
    intro m l hn hm
    cases l with
    | nil => cases m <;> rfl
    | cons c cs =>
      cases m with
      | zero => simp at hm
      | succ m =>
        have hcsn : cs.length ≤ n := by
          simp only [List.length_cons] at hn
          omega
        have hcsm : cs.length ≤ m := by
          simp only [List.length_cons] at hm
          omega
        rw [wsplitF, wsplitF]
        rw [ih m cs hcsn hcsm,
          ih m (cs.dropWhile notWs)
            (le_trans (List.dropWhile_sublist notWs).length_le hcsn)
            (le_trans (List.dropWhile_sublist notWs).length_le hcsm)]

theorem wsplitF_eq (n : Nat) (l : List Char) (h : l.length ≤ n) :
    wsplitF n l = wsplit l :=
  wsplitF_congr n l.length l h le_rfl

theorem wsplit_nil : wsplit [] = [] := rfl

theorem wsplit_cons (c : Char) (cs : List Char) :
    wsplit (c :: cs) =
      if isWs c then wsplit cs
      else (c :: cs.takeWhile notWs) :: wsplit (cs.dropWhile notWs) := by
  show wsplitF (c :: cs).length (c :: cs) = _
  rw [List.length_cons, wsplitF]
  rw [wsplitF_eq cs.length cs le_rfl,
    wsplitF_eq cs.length (cs.dropWhile notWs)
      (List.dropWhile_sublist notWs).length_le]

theorem collapseWsF_congr :
    ∀ (n m : Nat) (l : List Char), l.length ≤ n → l.length ≤ m →
      collapseWsF n l = collapseWsF m l := by
  intro n
  induction n with
  | zero =>
    intro m l hn hm
    cases l with
    | nil => cases m <;> rfl
    | cons c cs => simp at hn
  | succ n ih =>
    intro m l hn hm
    cases l with
    | nil => cases m <;> rfl
    | cons c cs =>
      cases m with
      | zero => simp at hm
      | succ m =>
        have hcsn : cs.length ≤ n := by
          simp only [List.length_cons] at hn
          omega
        have hcsm : cs.length ≤ m := by
          simp only [List.length_cons] at hm
          omega
        rw [collapseWsF, collapseWsF]
        rw [ih m cs hcsn hcsm,
          ih m (cs.dropWhile isWs)
            (le_trans (List.dropWhile_sublist isWs).length_le hcsn)
            (le_trans (List.dropWhile_sublist isWs).length_le hcsm)]

theorem collapseWsF_eq (n : Nat) (l : List Char) (h : l.length ≤ n) :
    collapseWsF n l = collapseWs l :=
  collapseWsF_congr n l.length l h le_rfl

theorem collapseWs_nil : collapseWs [] = [] := rfl

theorem collapseWs_cons (c : Char) (cs : List Char) :
    collapseWs (c :: cs) =
      if isWs c then ' ' :: collapseWs (cs.dropWhile isWs)
      else c :: collapseWs cs := by
  show collapseWsF (c :: cs).length (c :: cs) = _
  rw [List.length_cons, collapseWsF]
  rw [collapseWsF_eq cs.length cs le_rfl,
    collapseWsF_eq cs.length (cs.dropWhile isWs) (List.dropWhile_sublist isWs).length_le]

theorem subRuns2F_congr (cls : Char → Bool) (rep : Char) :
    ∀ (n m : Nat) (l : List Char), l.length ≤ n → l.length ≤ m →
      subRuns2F cls rep n l = subRuns2F cls rep m l := by
  intro n
  induction n with
  | zero =>
    intro m l hn hm
    cases l with
    | nil => cases m <;> rfl
    | cons c cs => simp at hn
  | succ n ih =>
    intro m l hn hm
    cases l with
    | nil => cases m <;> rfl
    | cons c cs =>
      cases m with
      | zero => simp at hm
      | succ m =>
        have hcsn : cs.length ≤ n := by
          simp only [List.length_cons] at hn
          omega
        have hcsm : cs.length ≤ m := by
          simp only [List.length_cons] at hm
          omega
        rw [subRuns2F, subRuns2F]
        rw [ih m cs hcsn hcsm,
          ih m (cs.dropWhile cls)
            (le_trans (List.dropWhile_sublist cls).length_le hcsn)
            (le_trans (List.dropWhile_sublist cls).length_le hcsm)]

theorem subRuns2F_eq (cls : Char → Bool) (rep : Char) (n : Nat) (l : List Char)
    (h : l.length ≤ n) : subRuns2F cls rep n l = subRuns2 cls rep l :=
  subRuns2F_congr cls rep n l.length l h le_rfl

theorem subRuns2_nil (cls : Char → Bool) (rep : Char) : subRuns2 cls rep [] = [] := rfl

theorem subRuns2_cons (cls : Char → Bool) (rep : Char) (c : Char) (cs : List Char) :
    subRuns2 cls rep (c :: cs) =
      if cls c then
        if (cs.takeWhile cls).isEmpty then c :: subRuns2 cls rep cs
        else rep :: subRuns2 cls rep (cs.dropWhile cls)
      else c :: subRuns2 cls rep cs := by
  show subRuns2F cls rep (c :: cs).length (c :: cs) = _
  rw [List.length_cons, subRuns2F]
  rw [subRuns2F_eq cls rep cs.length cs le_rfl,
    subRuns2F_eq cls rep cs.length (cs.dropWhile cls) (List.dropWhile_sublist cls).length_le]

/-! Character-level helper lemmas. -/

theorem charLe_iff (a b : Char) : a ≤ b ↔ a.toNat ≤ b.toNat := by
  rw [Char.le_def, UInt32.le_def, BitVec.le_def]
  exact Iff.rfl

theorem lower_bounds {c : Char} :
    isLowerAlpha c = true ↔ 97 ≤ c.toNat ∧ c.toNat ≤ 122 := by
  simp only [isLowerAlpha, Bool.and_eq_true, decide_eq_true_eq, charLe_iff]
  exact Iff.rfl

theorem alpha_bounds {c : Char} :
    isAsciiAlpha c = true ↔
      (97 ≤ c.toNat ∧ c.toNat ≤ 122) ∨ (65 ≤ c.toNat ∧ c.toNat ≤ 90) := by
  simp only [isAsciiAlpha, Bool.or_eq_true, Bool.and_eq_true, decide_eq_true_eq,
    charLe_iff]
  exact Iff.rfl

theorem isWs_toNat {c : Char} (h : isWs c = true) : c.toNat ≤ 32 := by
  simp only [isWs, Bool.or_eq_true, decide_eq_true_eq] at h
  rcases h with ((((h | h) | h) | h) | h) | h <;> subst h <;> decide

theorem lower_notWs {c : Char} (h : isLowerAlpha c = true) : notWs c = true := by
  have hb := lower_bounds.mp h
  simp only [notWs, Bool.not_eq_true']
  cases hw : isWs c with
  | false => rfl
  | true => have := isWs_toNat hw; omega

theorem lower_alpha {c : Char} (h : isLowerAlpha c = true) : isAsciiAlpha c = true :=
  alpha_bounds.mpr (Or.inl (lower_bounds.mp h))

theorem lower_toLower {c : Char} (h : isLowerAlpha c = true) : Char.toLower c = c := by
  have hb := lower_bounds.mp h
  rw [Char.toLower]
  exact if_neg (by omega)

theorem lower_notCurly {c : Char} (h : isLowerAlpha c = true) : isCurly c = false := by
  have hb := lower_bounds.mp h
  simp only [isCurly, Bool.or_eq_false_iff, decide_eq_false_iff_not]
  constructor <;> intro hc <;> subst hc <;> revert hb <;> decide

theorem lower_notApos {c : Char} (h : isLowerAlpha c = true) : isApos c = false := by
  have hb := lower_bounds.mp h
  simp only [isApos, decide_eq_false_iff_not]
  intro hc; subst hc; revert hb; decide

theorem ofNat_plus32 {n : Nat} (h1 : 65 ≤ n) (h2 : n ≤ 90) :
    (Char.ofNat (n + 32)).toNat = n + 32 := by
  interval_cases n <;> decide

theorem toLower_notUpper (c : Char) :
    ¬(65 ≤ (Char.toLower c).toNat ∧ (Char.toLower c).toNat ≤ 90) := by
  rw [Char.toLower]
  by_cases h : c.toNat ≥ 65 ∧ c.toNat ≤ 90
  · rw [if_pos h]
    rw [ofNat_plus32 h.1 h.2]
    omega
  · rw [if_neg h]
    omega

/-! Splitting and joining. -/

/-- Cleanliness of a token list: every token is nonempty and made of
lowercase ASCII letters. -/
def CleanToks (ls : List (List Char)) : Prop :=
  ∀ w ∈ ls, w ≠ [] ∧ ∀ c ∈ w, isLowerAlpha c = true

theorem wsplit_mem :
    ∀ l, ∀ w ∈ wsplit l, w ≠ [] ∧ ∀ c ∈ w, notWs c = true ∧ c ∈ l := by
  have aux : ∀ (n : Nat) (l : List Char), l.length ≤ n →
      ∀ w ∈ wsplit l, w ≠ [] ∧ ∀ c ∈ w, notWs c = true ∧ c ∈ l := by
    intro n
    induction n with
    | zero =>
      intro l hl
      cases l with
      | nil => simp [wsplit_nil]
      | cons c cs => simp at hl
    | succ n ih =>
      intro l hl
      cases l with
      | nil => simp [wsplit_nil]
      | cons c cs =>
        have hcs : cs.length ≤ n := by
          simp only [List.length_cons] at hl
          omega
        intro w hw
        rw [wsplit_cons] at hw
        by_cases hc : isWs c = true
        · rw [if_pos hc] at hw
          obtain ⟨h1, h2⟩ := ih cs hcs w hw
          exact ⟨h1, fun d hd => ⟨(h2 d hd).1, List.mem_cons_of_mem c (h2 d hd).2⟩⟩
        · rw [if_neg hc] at hw
          rcases List.mem_cons.mp hw with hw | hw
          · subst hw
            refine ⟨List.cons_ne_nil _ _, ?_⟩
            intro d hd
            rcases List.mem_cons.mp hd with hd | hd
            · subst hd
              exact ⟨by simp [notWs, hc], List.mem_cons_self _ _⟩
            · exact ⟨List.mem_takeWhile_imp hd,
                List.mem_cons_of_mem c ((List.takeWhile_prefix notWs).subset hd)⟩
          · obtain ⟨h1, h2⟩ := ih (cs.dropWhile notWs)
              (le_trans (List.dropWhile_sublist notWs).length_le hcs) w hw
            exact ⟨h1, fun d hd => ⟨(h2 d hd).1,
              List.mem_cons_of_mem c ((List.dropWhile_suffix notWs).subset (h2 d hd).2)⟩⟩
  intro l
  exact aux l.length l le_rfl

theorem joinSp_cons (w : List Char) (ws : List (List Char)) :
    joinSp (w :: ws) = w ++ (if ws = [] then [] else ' ' :: joinSp ws) := by
  cases ws with
  | nil => simp [joinSp]
  | cons w2 ws2 => simp [joinSp]

theorem wsplit_joinSp :
    ∀ ls : List (List Char),
      (∀ w ∈ ls, w ≠ [] ∧ ∀ c ∈ w, notWs c = true) → wsplit (joinSp ls) = ls := by
  intro ls
  induction ls with
  | nil => intro _; simp [joinSp, wsplit_nil]
  | cons w ws ih =>
    intro h
    obtain ⟨hw, hcs⟩ := h w (List.mem_cons_self _ _)
    obtain ⟨c, cs, rfl⟩ := List.exists_cons_of_ne_nil hw
    have hc : isWs c = false := by
      have := hcs c (List.mem_cons_self _ _)
      simpa [notWs] using this
    have hcsall : ∀ d ∈ cs, notWs d = true :=
      fun d hd => hcs d (List.mem_cons_of_mem c hd)
    cases ws with
    | nil =>
      show wsplit (joinSp [c :: cs]) = [c :: cs]
      have : joinSp [c :: cs] = c :: cs := rfl
      rw [this, wsplit_cons, if_neg (by simp [hc])]
      rw [List.takeWhile_eq_self_iff.mpr hcsall]
      rw [List.dropWhile_eq_nil_iff.mpr hcsall]
      rw [wsplit_nil]
    | cons w2 ws2 =>
      have hjoin : joinSp ((c :: cs) :: w2 :: ws2) =
          c :: (cs ++ ' ' :: joinSp (w2 :: ws2)) := by
        simp [joinSp]
      rw [hjoin, wsplit_cons, if_neg (by simp [hc])]
      rw [List.takeWhile_append_of_pos hcsall,
        List.takeWhile_cons_of_neg (by simp [notWs, isWs]),
        List.dropWhile_append_of_pos hcsall,
        List.dropWhile_cons_of_neg (by simp [notWs, isWs])]
      rw [wsplit_cons, if_pos (by simp [isWs])]
      rw [ih (fun v hv => h v (List.mem_cons_of_mem _ hv))]
      simp

theorem subRuns2_id (cls : Char → Bool) (rep : Char) :
    ∀ l : List Char, (∀ c ∈ l, cls c = false) → subRuns2 cls rep l = l := by
  intro l
  induction l with
  | nil => intro _; rw [subRuns2_nil]
  | cons c cs ih =>
    intro h
    rw [subRuns2_cons, if_neg (by simp [h c (List.mem_cons_self _ _)])]
    rw [ih (fun d hd => h d (List.mem_cons_of_mem c hd))]

theorem fixWord_id {w : List Char} (h : ∀ c ∈ w, isLowerAlpha c = true) :
    fixWord w = w := by
  rw [fixWord, subRuns2_id isCurly rsq w (fun c hc => lower_notCurly (h c hc))]
  exact subRuns2_id isApos rsq w (fun c hc => lower_notApos (h c hc))

theorem fixLoop_id :
    ∀ ls : List (List Char),
      (∀ w ∈ ls, ∀ c ∈ w, isLowerAlpha c = true) → fixLoop ls = (ls, []) := by
  intro ls
  induction ls with
  | nil => intro _; rfl
  | cons w ws ih =>
    intro h
    have hfix : fixWord w = w := fixWord_id (h w (List.mem_cons_self _ _))
    rw [fixLoop]
    rw [ih (fun v hv => h v (List.mem_cons_of_mem w hv))]
    simp [hfix]

theorem collapseWs_append {w r : List Char} (h : ∀ c ∈ w, notWs c = true) :
    collapseWs (w ++ r) = w ++ collapseWs r := by
  induction w with
  | nil => simp
  | cons c cs ih =>
    have hc : isWs c = false := by
      simpa [notWs] using h c (List.mem_cons_self _ _)
    rw [List.cons_append, collapseWs_cons, if_neg (by simp [hc])]
    rw [ih (fun d hd => h d (List.mem_cons_of_mem c hd))]
    simp

theorem collapseWs_joinSp :
    ∀ ls : List (List Char),
      (∀ w ∈ ls, w ≠ [] ∧ ∀ c ∈ w, notWs c = true) →
      collapseWs (joinSp ls) = joinSp ls := by
  intro ls
  induction ls with
  | nil => intro _; simp [joinSp, collapseWs_nil]
  | cons w ws ih =>
    intro h
    obtain ⟨hw, hcs⟩ := h w (List.mem_cons_self _ _)
    cases ws with
    | nil =>
      show collapseWs (joinSp [w]) = joinSp [w]
      have : joinSp [w] = w ++ [] := by simp [joinSp]
      rw [this, collapseWs_append hcs]
      simp [collapseWs_nil]
    | cons w2 ws2 =>
      have hjoin : joinSp (w :: w2 :: ws2) = w ++ ' ' :: joinSp (w2 :: ws2) := rfl
      obtain ⟨hw2, hcs2⟩ := h w2 (List.mem_cons_of_mem w (List.mem_cons_self _ _))
      obtain ⟨c2, cs2, hw2eq⟩ := List.exists_cons_of_ne_nil hw2
      have hc2 : isWs c2 = false := by
        have := hcs2 c2 (by rw [hw2eq]; exact List.mem_cons_self _ _)
        simpa [notWs] using this
      have hjoin2 : joinSp (w2 :: ws2) = c2 :: (cs2 ++ if ws2 = [] then [] else ' ' :: joinSp ws2) := by
        rw [joinSp_cons, hw2eq]
        simp
      rw [hjoin, collapseWs_append hcs, collapseWs_cons, if_pos (by simp [isWs])]
      rw [hjoin2, List.dropWhile_cons_of_neg (by simp [hc2]), ← hjoin2]
      rw [ih (fun v hv => h v (List.mem_cons_of_mem w hv))]

theorem head_notWs_of_dropWhile_self {d : Char} {t : List Char}
    (h : (d :: t).dropWhile isWs = d :: t) : isWs d = false := by
  cases hd : isWs d with
  | false => rfl
  | true =>
    rw [List.dropWhile_cons_of_pos hd] at h
    have h1 := (List.dropWhile_sublist isWs (l := t)).length_le
    have h2 := congrArg List.length h
    simp only [List.length_cons] at h2
    omega

theorem dropWhile_self_append {a x : List Char}
    (ha : a.dropWhile isWs = a) (hne : a ≠ []) :
    (a ++ x).dropWhile isWs = a ++ x := by
  obtain ⟨d, t, rfl⟩ := List.exists_cons_of_ne_nil hne
  rw [List.cons_append]
  exact List.dropWhile_cons_of_neg (by simp [head_notWs_of_dropWhile_self ha])

theorem joinSp_ne_nil {w : List Char} {ws : List (List Char)} (h : w ≠ []) :
    joinSp (w :: ws) ≠ [] := by
  rw [joinSp_cons]
  simp [h]

theorem joinSp_drop :
    ∀ ls : List (List Char),
      (∀ w ∈ ls, w ≠ [] ∧ ∀ c ∈ w, notWs c = true) →
      (joinSp ls).dropWhile isWs = joinSp ls := by
  intro ls h
  cases ls with
  | nil => rfl
  | cons w ws =>
    obtain ⟨hw, hcs⟩ := h w (List.mem_cons_self _ _)
    obtain ⟨c, cs, rfl⟩ := List.exists_cons_of_ne_nil hw
    have hc : isWs c = false := by
      simpa [notWs] using hcs c (List.mem_cons_self _ _)
    rw [joinSp_cons, List.cons_append]
    exact List.dropWhile_cons_of_neg (by simp [hc])

theorem joinSp_rev_drop :
    ∀ ls : List (List Char),
      (∀ w ∈ ls, w ≠ [] ∧ ∀ c ∈ w, notWs c = true) →
      (joinSp ls).reverse.dropWhile isWs = (joinSp ls).reverse := by
  intro ls
  induction ls with
  | nil => intro _; rfl
  | cons w ws ih =>
    intro h
    obtain ⟨hw, hcs⟩ := h w (List.mem_cons_self _ _)
    cases ws with
    | nil =>
      show (joinSp [w]).reverse.dropWhile isWs = (joinSp [w]).reverse
      have hj : joinSp [w] = w := rfl
      rw [hj]
      obtain ⟨d, t, hdt⟩ := List.exists_cons_of_ne_nil (by simp [hw] : w.reverse ≠ [])
      have hd : isWs d = false := by
        have hmem : d ∈ w := by
          rw [← List.mem_reverse, hdt]
          exact List.mem_cons_self _ _
        simpa [notWs] using hcs d hmem
      rw [hdt]
      exact List.dropWhile_cons_of_neg (by simp [hd])
    | cons w2 ws2 =>
      have hj : joinSp (w :: w2 :: ws2) = w ++ ' ' :: joinSp (w2 :: ws2) := rfl
      have hrest := ih (fun v hv => h v (List.mem_cons_of_mem w hv))
      have hne : joinSp (w2 :: ws2) ≠ [] :=
        joinSp_ne_nil (h w2 (List.mem_cons_of_mem w (List.mem_cons_self _ _))).1
      rw [hj, List.reverse_append, List.reverse_cons]
      rw [List.append_assoc]
      exact dropWhile_self_append hrest (by simp [hne])

theorem pystrip_joinSp {ls : List (List Char)}
    (h : ∀ w ∈ ls, w ≠ [] ∧ ∀ c ∈ w, notWs c = true) :
    pystrip (joinSp ls) = joinSp ls := by
  rw [pystrip, joinSp_drop ls h, joinSp_rev_drop ls h, List.reverse_reverse]

theorem mem_joinSp :
    ∀ ls : List (List Char), ∀ c ∈ joinSp ls, (∃ w ∈ ls, c ∈ w) ∨ c = ' ' := by
  intro ls
  induction ls with
  | nil => simp [joinSp]
  | cons w ws ih =>
    intro c hc
    rw [joinSp_cons] at hc
    rcases List.mem_append.mp hc with hc | hc
    · exact Or.inl ⟨w, List.mem_cons_self _ _, hc⟩
    · by_cases hws : ws = []
      · simp [hws] at hc
      · rw [if_neg hws] at hc
        rcases List.mem_cons.mp hc with hc | hc
        · exact Or.inr hc
        · rcases ih c hc with ⟨v, hv, hcv⟩ | hc
          · exact Or.inl ⟨v, List.mem_cons_of_mem w hv, hcv⟩
          · exact Or.inr hc

theorem map_toLower_joinSp {ls : List (List Char)} (h : CleanToks ls) :
    (joinSp ls).map Char.toLower = joinSp ls := by
  have : ∀ c ∈ joinSp ls, Char.toLower c = c := by
    intro c hc
    rcases mem_joinSp ls c hc with ⟨w, hw, hcw⟩ | hc
    · exact lower_toLower ((h w hw).2 c hcw)
    · subst hc; decide
  calc (joinSp ls).map Char.toLower = (joinSp ls).map id := List.map_congr_left this
    _ = joinSp ls := List.map_id _

theorem subNonAlpha_joinSp {ls : List (List Char)} (h : CleanToks ls) :
    subNonAlpha (joinSp ls) = joinSp ls := by
  have hid : ∀ c ∈ joinSp ls,
      (if isAsciiAlpha c || isWs c then c else ' ') = c := by
    intro c hc
    rcases mem_joinSp ls c hc with ⟨w, hw, hcw⟩ | hc
    · rw [if_pos]
      simp [lower_alpha ((h w hw).2 c hcw)]
    · subst hc; decide
  calc subNonAlpha (joinSp ls) = (joinSp ls).map id := List.map_congr_left hid
    _ = joinSp ls := List.map_id _

theorem cleanToks_notWs {ls : List (List Char)} (h : CleanToks ls) :
    ∀ w ∈ ls, w ≠ [] ∧ ∀ c ∈ w, notWs c = true :=
  fun w hw => ⟨(h w hw).1, fun c hc => lower_notWs ((h w hw).2 c hc)⟩

/-- Master round-trip lemma: on the single-space join of a clean token
list, quote repair is the identity with no fixes, and the full
normalization pipeline returns exactly the token list. -/
theorem roundTrip {ls : List (List Char)} (h : CleanToks ls) :
    fix_special_cases ⟨joinSp ls⟩ = (⟨joinSp ls⟩, []) ∧
    tokensOf ⟨joinSp ls⟩ = ls.map (fun l => (⟨l⟩ : String)) := by
  have hws := cleanToks_notWs h
  have hsplit : wsplit (joinSp ls) = ls := wsplit_joinSp ls hws
  have hfix : fix_special_cases ⟨joinSp ls⟩ = (⟨joinSp ls⟩, []) := by
    rw [fix_special_cases]
    show ((⟨joinSp (fixLoop (wsplit (joinSp ls))).1⟩ : String),
      (fixLoop (wsplit (joinSp ls))).2) = ((⟨joinSp ls⟩ : String), [])
    rw [hsplit, fixLoop_id ls (fun w hw => (h w hw).2)]
  refine ⟨hfix, ?_⟩
  rw [tokensOf, hfix]
  show split_words (to_lowercase (clean_spaces ⟨joinSp ls⟩)) = _
  have hclean : clean_spaces ⟨joinSp ls⟩ = ⟨joinSp ls⟩ := by
    rw [clean_spaces]
    show (⟨collapseWs (pystrip (joinSp ls))⟩ : String) = _
    rw [pystrip_joinSp hws, collapseWs_joinSp ls hws]
  rw [hclean]
  have hlow : to_lowercase ⟨joinSp ls⟩ = ⟨joinSp ls⟩ := by
    rw [to_lowercase]
    show (⟨(joinSp ls).map Char.toLower⟩ : String) = _
    rw [map_toLower_joinSp h]
  rw [hlow]
  rw [split_words]
  show ((wsplit (subNonAlpha (joinSp ls))).map (fun l => (⟨l⟩ : String))) = _
  rw [subNonAlpha_joinSp h, hsplit]

/-! Cleanliness of the normalized tokens. -/

theorem string_mk_data (s : String) : (⟨s.data⟩ : String) = s := by
  cases s
  rfl

theorem string_data_ne_nil {s : String} (h : s ≠ "") : s.data ≠ [] := by
  intro hd
  apply h
  rw [← string_mk_data s, hd]

theorem tokens_clean (l : List Char) :
    ∀ w ∈ wsplit (subNonAlpha (l.map Char.toLower)),
      w ≠ [] ∧ ∀ c ∈ w, isLowerAlpha c = true := by
  intro w hw
  obtain ⟨h1, h2⟩ := wsplit_mem _ w hw
  refine ⟨h1, ?_⟩
  intro c hc
  obtain ⟨hnw, hmem⟩ := h2 c hc
  obtain ⟨a, ha, hae⟩ := List.mem_map.mp hmem
  by_cases hcond : isAsciiAlpha a || isWs a
  · rw [if_pos hcond] at hae
    subst hae
    rcases Bool.or_eq_true _ _ |>.mp hcond with halpha | hws
    · obtain ⟨b, _, hb⟩ := List.mem_map.mp ha
      rcases alpha_bounds.mp halpha with hlow | hup
      · exact lower_bounds.mpr hlow
      · exact absurd (hb ▸ hup) (toLower_notUpper b)
    · rw [notWs, hws] at hnw
      simp at hnw
  · rw [if_neg hcond] at hae
    subst hae
    simp [notWs, isWs] at hnw

theorem tokensOf_clean (text : String) :
    ∀ t ∈ tokensOf text, t.data ≠ [] ∧ ∀ c ∈ t.data, isLowerAlpha c = true := by
  intro t ht
  rw [tokensOf, split_words] at ht
  obtain ⟨w, hw, hwe⟩ := List.mem_map.mp ht
  have hdata : (to_lowercase (clean_spaces (fix_special_cases text).1)).data =
      (clean_spaces (fix_special_cases text).1).data.map Char.toLower := rfl
  rw [hdata] at hw
  obtain ⟨h1, h2⟩ := tokens_clean _ w hw
  subst hwe
  exact ⟨h1, h2⟩

/-! Character content of generated edits. -/

theorem alphabet_lower : ∀ c ∈ alphabet, isLowerAlpha c = true := by decide

theorem edits1_chars {w : List Char} :
    ∀ e ∈ edits1 w, ∀ c ∈ e, c ∈ w ∨ c ∈ alphabet := by
  intro e he c hc
  rw [edits1] at he
  rcases List.mem_append.mp he with he | he
  rcases List.mem_append.mp he with he | he
  rcases List.mem_append.mp he with he | he
  · obtain ⟨i, _, hie⟩ := List.mem_map.mp he
    subst hie
    rcases List.mem_append.mp hc with hc | hc
    · exact Or.inl (List.take_subset _ _ hc)
    · exact Or.inl (List.drop_subset _ _ hc)
  · obtain ⟨i, _, hie⟩ := List.mem_map.mp he
    subst hie
    rcases List.mem_append.mp hc with hc | hc
    · rcases List.mem_append.mp hc with hc | hc
      · exact Or.inl (List.take_subset _ _ hc)
      · rw [List.mem_reverse] at hc
        exact Or.inl (List.drop_subset _ _ (List.take_subset _ _ hc))
    · exact Or.inl (List.drop_subset _ _ hc)
  · obtain ⟨i, _, hrest⟩ := List.mem_flatMap.mp he
    obtain ⟨a, ha, hae⟩ := List.mem_map.mp hrest
    subst hae
    rcases List.mem_append.mp hc with hc | hc
    · exact Or.inl (List.take_subset _ _ hc)
    · rcases List.mem_cons.mp hc with hc | hc
      · exact Or.inr (hc ▸ ha)
      · exact Or.inl (List.drop_subset _ _ hc)
  · obtain ⟨i, _, hrest⟩ := List.mem_flatMap.mp he
    obtain ⟨a, ha, hae⟩ := List.mem_map.mp hrest
    subst hae
    rcases List.mem_append.mp hc with hc | hc
    · exact Or.inl (List.take_subset _ _ hc)
    · rcases List.mem_cons.mp hc with hc | hc
      · exact Or.inr (hc ▸ ha)
      · exact Or.inl (List.drop_subset _ _ hc)

theorem edits1_lower {w : List Char} (hw : ∀ c ∈ w, isLowerAlpha c = true) :
    ∀ e ∈ edits1 w, ∀ c ∈ e, isLowerAlpha c = true := by
  intro e he c hc
  rcases edits1_chars e he c hc with hcw | hca
  · exact hw c hcw
  · exact alphabet_lower c hca

theorem edits2_lower {w : List Char} (hw : ∀ c ∈ w, isLowerAlpha c = true) :
    ∀ e ∈ edits2 w, ∀ c ∈ e, isLowerAlpha c = true := by
  intro e he c hc
  rw [edits2] at he
  obtain ⟨e1, he1, he2⟩ := List.mem_flatMap.mp he
  exact edits1_lower (edits1_lower hw e1 he1) e he2 c hc

/-! Candidate and ranking lemmas. -/

theorem known_mem {d : Dict} {cs : List (List Char)} {x : String}
    (h : x ∈ known d cs) : x.data ∈ cs ∧ dContains d x = true := by
  rw [known] at h
  rw [List.mem_dedup] at h
  obtain ⟨hm, hp⟩ := List.mem_filter.mp h
  obtain ⟨l, hl, hle⟩ := List.mem_map.mp hm
  subst hle
  exact ⟨hl, hp⟩

theorem candidates_mem {d : Dict} {w x : String} (h : x ∈ candidates d w) :
    (x.data ∈ edits1 w.data ∨ x.data ∈ edits2 w.data) ∧ dContains d x = true := by
  rw [candidates] at h
  by_cases hc1 : known d (edits1 w.data) = []
  · rw [if_neg (by simp [hc1])] at h
    exact ⟨Or.inr (known_mem h).1, (known_mem h).2⟩
  · rw [if_pos hc1] at h
    exact ⟨Or.inl (known_mem h).1, (known_mem h).2⟩

theorem rank_aux {d : Dict} :
    ∀ (cs : List String) (b x : String),
      List.foldl
        (fun best c =>
          match best with
          | none => some c
          | some b => some (pickBetter d b c))
        (some b) cs = some x →
      x = b ∨ x ∈ cs := by
  intro cs
  induction cs with
  | nil =>
    intro b x h
    exact Or.inl (Option.some.inj h).symm
  | cons c cs ih =>
    intro b x h
    rw [List.foldl_cons] at h
    rcases ih (pickBetter d b c) x h with he | hm
    · rw [pickBetter] at he
      by_cases hcond : freq d c > freq d b ∨ (freq d c = freq d b ∧ strLt c b = true)
      · rw [if_pos hcond] at he
        exact Or.inr (he ▸ List.mem_cons_self _ _)
      · rw [if_neg hcond] at he
        exact Or.inl he
    · exact Or.inr (List.mem_cons_of_mem _ hm)

theorem rank_mem {d : Dict} {cs : List String} {x : String}
    (h : rank d cs = some x) : x ∈ cs := by
  cases cs with
  | nil => exact absurd h (by simp [rank])
  | cons c cs =>
    rw [rank, List.foldl_cons] at h
    rcases rank_aux cs c x h with he | hm
    · exact he ▸ List.mem_cons_self _ _
    · exact List.mem_cons_of_mem _ hm

theorem correction_mem {d : Dict} {w x : String} (h : correction d w = some x) :
    x ∈ candidates d w := rank_mem h

theorem correction_lower {d : Dict} {w x : String}
    (hw : ∀ c ∈ w.data, isLowerAlpha c = true) (h : correction d w = some x) :
    ∀ c ∈ x.data, isLowerAlpha c = true := by
  obtain ⟨hed, _⟩ := candidates_mem (correction_mem h)
  rcases hed with hed | hed
  · exact edits1_lower hw _ hed
  · exact edits2_lower hw _ hed

/-! Unknown-set and per-token loop lemmas. -/

theorem unknown_mem {d : Dict} {ws : List String} {x : String} :
    x ∈ unknown d ws ↔ x ∈ ws ∧ dContains d x = false := by
  rw [unknown, List.mem_dedup, List.mem_filter]
  simp

theorem correctLoop_fst {d : Dict} {mis : List String} :
    ∀ ws : List String,
      (correctLoop d mis ws).1 = ws.map (fun w => (correctToken d mis w).1) := by
  intro ws
  induction ws with
  | nil => rfl
  | cons w ws ih => simp [correctLoop, ih]

theorem correctLoop_snd {d : Dict} {mis : List String} :
    ∀ (ws : List String) (p : String × String),
      p ∈ (correctLoop d mis ws).2 → ∃ w ∈ ws, (correctToken d mis w).2 = some p := by
  intro ws
  induction ws with
  | nil => simp [correctLoop]
  | cons w ws ih =>
    intro p hp
    rw [correctLoop] at hp
    rcases List.mem_append.mp hp with hp | hp
    · refine ⟨w, List.mem_cons_self _ _, ?_⟩
      cases hsnd : (correctToken d mis w).2 with
      | none => rw [hsnd] at hp; simp at hp
      | some q =>
        rw [hsnd] at hp
        simp at hp
        rw [hp]
    · obtain ⟨v, hv, hve⟩ := ih p hp
      exact ⟨v, List.mem_cons_of_mem w hv, hve⟩

theorem correctToken_not_mis {d : Dict} {mis : List String} {w : String}
    (hmis : w ∉ mis) : correctToken d mis w = (w, none) := by
  rw [correctToken, if_neg hmis]

theorem correctToken_none {d : Dict} {mis : List String} {w : String}
    (hmis : w ∈ mis) (hcor : correction d w = none) :
    correctToken d mis w = (w, none) := by
  rw [correctToken, if_pos hmis, hcor]

theorem correctToken_some {d : Dict} {mis : List String} {w c : String}
    (hmis : w ∈ mis) (hcor : correction d w = some c) :
    correctToken d mis w = if c ≠ "" ∧ c ≠ w then (c, some (w, c)) else (w, none) := by
  rw [correctToken, if_pos hmis, hcor]

theorem correctToken_snd_ne {d : Dict} {mis : List String} {w : String}
    {p : String × String} (h : (correctToken d mis w).2 = some p) :
    p.2 ≠ p.1 := by
  by_cases hmis : w ∈ mis
  · cases hcor : correction d w with
    | none => rw [correctToken_none hmis hcor] at h; simp at h
    | some c =>
      rw [correctToken_some hmis hcor] at h
      by_cases hg : c ≠ "" ∧ c ≠ w
      · rw [if_pos hg] at h
        simp at h
        rw [← h]
        exact hg.2
      · rw [if_neg hg] at h
        simp at h
  · rw [correctToken_not_mis hmis] at h
    simp at h

theorem fixLoop_snd_ne :
    ∀ (ls : List (List Char)) (p : String × String),
      p ∈ (fixLoop ls).2 → p.2 ≠ p.1 := by
  intro ls
  induction ls with
  | nil => simp [fixLoop]
  | cons w ws ih =>
    intro p hp
    rw [fixLoop] at hp
    simp only [List.mem_append] at hp
    rcases hp with hp | hp
    · by_cases hne : fixWord w ≠ w
      · rw [if_pos hne] at hp
        simp at hp
        rw [hp]
        intro he
        exact hne (congrArg String.data he)
      · rw [if_neg hne] at hp
        simp at hp
    · exact ih p hp

/-! Projections of correct_words and second-pass bridges. -/

theorem correct_words_misspelled (d : Dict) (raw : String) :
    (correct_words d raw).misspelled = unknown d (tokensOf raw) := rfl

theorem correct_words_fixes (d : Dict) (raw : String) :
    (correct_words d raw).all_fixes =
      (fix_special_cases raw).2 ++
        (correctLoop d (unknown d (tokensOf raw)) (tokensOf raw)).2 := rfl

theorem correct_words_text (d : Dict) (raw : String) :
    (correct_words d raw).corrected_text = join_words (outTokens d raw) := rfl

theorem outTokens_clean (d : Dict) (raw : String) :
    ∀ t ∈ outTokens d raw, t.data ≠ [] ∧ ∀ c ∈ t.data, isLowerAlpha c = true := by
  intro t ht
  rw [outTokens, correctLoop_fst] at ht
  obtain ⟨w, hw, hwe⟩ := List.mem_map.mp ht
  obtain ⟨hwne, hwcl⟩ := tokensOf_clean raw w hw
  subst hwe
  by_cases hmis : w ∈ unknown d (tokensOf raw)
  · cases hcor : correction d w with
    | none => rw [correctToken_none hmis hcor]; exact ⟨hwne, hwcl⟩
    | some c =>
      rw [correctToken_some hmis hcor]
      by_cases hg : c ≠ "" ∧ c ≠ w
      · rw [if_pos hg]
        exact ⟨string_data_ne_nil hg.1, correction_lower hwcl hcor⟩
      · rw [if_neg hg]
        exact ⟨hwne, hwcl⟩
  · rw [correctToken_not_mis hmis]
    exact ⟨hwne, hwcl⟩

theorem cleanToks_of_strings {ts : List String}
    (h : ∀ t ∈ ts, t.data ≠ [] ∧ ∀ c ∈ t.data, isLowerAlpha c = true) :
    CleanToks (ts.map String.data) := by
  intro w hw
  obtain ⟨t, ht, hte⟩ := List.mem_map.mp hw
  subst hte
  exact h t ht

theorem map_mk_data (ts : List String) :
    (ts.map String.data).map (fun l => (⟨l⟩ : String)) = ts := by
  rw [List.map_map]
  calc ts.map (fun t => (⟨t.data⟩ : String)) = ts.map id :=
        List.map_congr_left (fun t _ => string_mk_data t)
    _ = ts := List.map_id _

theorem pysplit_join {ts : List String}
    (h : ∀ t ∈ ts, t.data ≠ [] ∧ ∀ c ∈ t.data, isLowerAlpha c = true) :
    pysplit (join_words ts) = ts := by
  rw [pysplit, join_words]
  show ((wsplit (joinSp (ts.map String.data))).map (fun l => (⟨l⟩ : String))) = ts
  rw [wsplit_joinSp _ (cleanToks_notWs (cleanToks_of_strings h))]
  exact map_mk_data ts

theorem tokensOf_join {ts : List String}
    (h : ∀ t ∈ ts, t.data ≠ [] ∧ ∀ c ∈ t.data, isLowerAlpha c = true) :
    tokensOf (join_words ts) = ts ∧
    fix_special_cases (join_words ts) = (join_words ts, []) := by
  have hrt := roundTrip (cleanToks_of_strings h)
  refine ⟨?_, hrt.1⟩
  rw [show join_words ts = (⟨joinSp (ts.map String.data)⟩ : String) from rfl]
  rw [hrt.2]
  exact map_mk_data ts

/-! Order-theoretic lemmas for the lexicographic tie-break. -/

theorem charLt_iff (a b : Char) : a < b ↔ a.toNat < b.toNat := by
  rw [Char.lt_def, UInt32.lt_def, BitVec.lt_def]
  exact Iff.rfl

theorem char_eq_of_not_lt {a b : Char} (h1 : ¬a < b) (h2 : ¬b < a) : a = b := by
  rw [charLt_iff] at h1 h2
  have hn : a.toNat = b.toNat := by omega
  calc a = Char.ofNat a.toNat := (Char.ofNat_toNat a).symm
    _ = Char.ofNat b.toNat := by rw [hn]
    _ = b := Char.ofNat_toNat b

theorem charsLt_trans :
    ∀ (a b c : List Char), charsLt a b = true → charsLt b c = true →
      charsLt a c = true := by
  intro a
  induction a with
  | nil =>
    intro b c hab hbc
    cases b with
    | nil => simp [charsLt] at hab
    | cons y ys =>
      cases c with
      | nil => simp [charsLt] at hbc
      | cons z zs => simp [charsLt]
  | cons x xs ih =>
    intro b c hab hbc
    cases b with
    | nil => simp [charsLt] at hab
    | cons y ys =>
      cases c with
      | nil => simp [charsLt] at hbc
      | cons z zs =>
        rw [charsLt] at hab hbc ⊢
        by_cases hxy : x < y
        · by_cases hyz : y < z
          · rw [if_pos (Char.lt_trans hxy hyz)]
          · by_cases hzy : z < y
            · rw [if_neg hyz, if_pos hzy] at hbc
              simp at hbc
            · have heq : y = z := char_eq_of_not_lt hyz hzy
              subst heq
              rw [if_pos hxy]
        · by_cases hyx : y < x
          · rw [if_neg hxy, if_pos hyx] at hab
            simp at hab
          · have heq : x = y := char_eq_of_not_lt hxy hyx
            subst heq
            rw [if_neg hxy, if_neg hyx] at hab
            by_cases hxz : x < z
            · rw [if_pos hxz]
            · by_cases hzx : z < x
              · rw [if_neg hxz, if_pos hzx] at hbc
                simp at hbc
              · have heq2 : x = z := char_eq_of_not_lt hxz hzx
                subst heq2
                rw [if_neg hxz, if_neg hzx] at hbc ⊢
                exact ih ys zs hab hbc

theorem charsLt_connex :
    ∀ a b : List Char, a = b ∨ charsLt a b = true ∨ charsLt b a = true := by
  intro a
  induction a with
  | nil =>
    intro b
    cases b with
    | nil => exact Or.inl rfl
    | cons y ys => exact Or.inr (Or.inl (by rw [charsLt]))
  | cons x xs ih =>
    intro b
    cases b with
    | nil => exact Or.inr (Or.inr (by rw [charsLt]))
    | cons y ys =>
      by_cases hxy : x < y
      · exact Or.inr (Or.inl (by rw [charsLt, if_pos hxy]))
      · by_cases hyx : y < x
        · exact Or.inr (Or.inr (by rw [charsLt, if_pos hyx]))
        · have heq : x = y := char_eq_of_not_lt hxy hyx
          subst heq
          rcases ih ys with h | h | h
          · exact Or.inl (by rw [h])
          · refine Or.inr (Or.inl ?_)
            rw [charsLt, if_neg hxy, if_neg hyx]
            exact h
          · refine Or.inr (Or.inr ?_)
            rw [charsLt, if_neg hxy, if_neg hyx]
            exact h

theorem strLt_trans {a b c : String} (hab : strLt a b = true)
    (hbc : strLt b c = true) : strLt a c = true :=
  charsLt_trans a.data b.data c.data hab hbc

theorem strLt_connex (a b : String) :
    a = b ∨ strLt a b = true ∨ strLt b a = true := by
  rcases charsLt_connex a.data b.data with h | h | h
  · left
    rw [← string_mk_data a, ← string_mk_data b, h]
  · exact Or.inr (Or.inl h)
  · exact Or.inr (Or.inr h)

theorem pickBetter_freq_eq {d : Dict} {b c : String} (h : freq d c = freq d b) :
    pickBetter d b c = if strLt c b = true then c else b := by
  rw [pickBetter]
  by_cases hlt : strLt c b = true
  · rw [if_pos (Or.inr ⟨h, hlt⟩), if_pos hlt]
  · rw [if_neg ?_, if_neg hlt]
    intro hcond
    rcases hcond with hgt | ⟨_, hlt2⟩
    · omega
    · exact hlt hlt2

theorem foldl_min {d : Dict} :
    ∀ (cs : List String) (b : String),
      (∀ c ∈ cs, freq d c = freq d b) →
      ∃ m,
        List.foldl
          (fun best c =>
            match best with
            | none => some c
            | some b => some (pickBetter d b c))
          (some b) cs = some m ∧
        (m = b ∨ m ∈ cs) ∧ (m = b ∨ strLt m b = true) ∧
        ∀ c ∈ cs, c = m ∨ strLt m c = true := by
  intro cs
  induction cs with
  | nil =>
    intro b _
    exact ⟨b, rfl, Or.inl rfl, Or.inl rfl, by simp⟩
  | cons c cs ih =>
    intro b h
    have hcb : freq d c = freq d b := h c (List.mem_cons_self _ _)
    rw [List.foldl_cons]
    by_cases hlt : strLt c b = true
    · have hpb : pickBetter d b c = c := by
        rw [pickBetter_freq_eq hcb, if_pos hlt]
      have hfreq2 : ∀ x ∈ cs, freq d x = freq d c := by
        intro x hx
        rw [h x (List.mem_cons_of_mem c hx), hcb]
      obtain ⟨m, hm, hmem, hmb, hall⟩ := ih c hfreq2
      refine ⟨m, ?_, ?_, ?_, ?_⟩
      · show List.foldl _ (some (pickBetter d b c)) cs = some m
        rw [hpb]
        exact hm
      · rcases hmem with hmc | hmcs
        · exact Or.inr (hmc ▸ List.mem_cons_self _ _)
        · exact Or.inr (List.mem_cons_of_mem c hmcs)
      · rcases hmb with hmc | hmlt
        · exact Or.inr (hmc ▸ hlt)
        · exact Or.inr (strLt_trans hmlt hlt)
      · intro x hx
        rcases List.mem_cons.mp hx with hx | hx
        · subst hx
          rcases hmb with hmc | hmlt
          · exact Or.inl hmc.symm
          · exact Or.inr hmlt
        · exact hall x hx
    · have hpb : pickBetter d b c = b := by
        rw [pickBetter_freq_eq hcb, if_neg hlt]
      obtain ⟨m, hm, hmem, hmb, hall⟩ :=
        ih b (fun x hx => h x (List.mem_cons_of_mem c hx))
      refine ⟨m, ?_, ?_, hmb, ?_⟩
      · show List.foldl _ (some (pickBetter d b c)) cs = some m
        rw [hpb]
        exact hm
      · rcases hmem with hmb2 | hmcs
        · exact Or.inl hmb2
        · exact Or.inr (List.mem_cons_of_mem c hmcs)
      · intro x hx
        rcases List.mem_cons.mp hx with hx | hx
        · subst hx
          rcases strLt_connex x m with heq | hxm | hmx
          · exact Or.inl heq
          · exfalso
            rcases hmb with hmb2 | hmlt
            · exact hlt (hmb2 ▸ hxm)
            · exact hlt (strLt_trans hxm hmlt)
          · exact Or.inr hmx
        · exact hall x hx

theorem rank_min {d : Dict} {cs : List String}
    (hfreq : ∀ c ∈ cs, ∀ c2 ∈ cs, freq d c = freq d c2) (hne : cs ≠ []) :
    ∃ m, rank d cs = some m ∧ m ∈ cs ∧
      ∀ c ∈ cs, c = m ∨ strLt m c = true := by
  obtain ⟨c, cs2, rfl⟩ := List.exists_cons_of_ne_nil hne
  obtain ⟨m, hm, hmem, hmb, hall⟩ :=
    foldl_min cs2 c
      (fun x hx =>
        hfreq x (List.mem_cons_of_mem c hx) c (List.mem_cons_self _ _))
  refine ⟨m, ?_, ?_, ?_⟩
  · rw [rank, List.foldl_cons]
    exact hm
  · rcases hmem with hmc | hmcs
    · exact hmc ▸ List.mem_cons_self _ _
    · exact List.mem_cons_of_mem c hmcs
  · intro x hx
    rcases List.mem_cons.mp hx with hx | hx
    · subst hx
      rcases hmb with hmc | hmlt
      · exact Or.inl hmc.symm
      · exact Or.inr hmlt
    · exact hall x hx

/-! Claim theorems. -/

/-- C1: for every raw input string that is empty or consists only of
whitespace, the correction operation fails with EmptyInputError and no
CorrectionResult is produced. -/
theorem c1_empty_input (src : Option (List String)) (raw : String)
    (h : ∀ c ∈ raw.data, isWs c = true) :
    run src raw = Except.error CorrError.EmptyInputError := by
  have hstrip : (⟨pystrip raw.data⟩ : String) = "" := by
    rw [pystrip, List.dropWhile_eq_nil_iff.mpr h]
    rfl
  rw [run, if_pos (Or.inr hstrip)]

/-- Witness for C1 at the concrete whitespace-only input. -/
theorem c1_empty_input_witness :
    run none "  \t " = Except.error CorrError.EmptyInputError :=
  c1_empty_input none "  \t " (by decide)

/-- C2 (intended behaviour, modelling the evident indentation fix in
dict_loader.py): an unreadable dictionary source loads as the empty
dictionary, the correction call still completes, and every token of
the input is reported in the misspelled set. -/
theorem c2_load_failure (raw : String) :
    load_dictionary none = [] ∧
    ∀ w ∈ tokensOf raw, w ∈ (correct_text none raw).misspelled := by
  refine ⟨rfl, ?_⟩
  intro w hw
  show w ∈ (correct_words [] raw).misspelled
  rw [correct_words_misspelled]
  exact unknown_mem.mpr ⟨hw, rfl⟩

/-- Witness for C2 at a concrete input. -/
theorem c2_load_failure_witness :
    "hello" ∈ tokensOf "hello there" ∧
    "hello" ∈ (correct_text none "hello there").misspelled :=
  ⟨by decide, (c2_load_failure "hello there").2 "hello" (by decide)⟩

/-- C4: whenever all candidates of a ranking stage carry equal
dictionary frequency, the ranker - and hence the engine's correction -
returns exactly the lexicographically smallest candidate (the unique
one strictly below every other candidate); in particular with
dictionary cat at 5 and cot at 5 the token cbt is always corrected to
cat with the fix (cbt, cat), and with cat at 5 and abt at 5 the token
act is corrected to abt, the lexicographic minimum, even though cat is
generated first. -/
theorem c4_tie_break :
    (∀ (d : Dict) (cs : List String),
      (∀ c ∈ cs, ∀ c2 ∈ cs, freq d c = freq d c2) → cs ≠ [] →
      ∃ m, rank d cs = some m ∧ m ∈ cs ∧
        ∀ c ∈ cs, c = m ∨ strLt m c = true) ∧
    (∀ (d : Dict) (w : String),
      (∀ c ∈ candidates d w, ∀ c2 ∈ candidates d w, freq d c = freq d c2) →
      candidates d w ≠ [] →
      ∃ m, correction d w = some m ∧ m ∈ candidates d w ∧
        ∀ c ∈ candidates d w, c = m ∨ strLt m c = true) ∧
    (correct_words [("cat", 5), ("cot", 5)] "cbt").corrected_text = "cat" ∧
    (correct_words [("cat", 5), ("cot", 5)] "cbt").all_fixes = [("cbt", "cat")] ∧
    (correct_words [("cat", 5), ("abt", 5)] "act").corrected_text = "abt" := by
  refine ⟨?_, ?_, rfl, rfl, rfl⟩
  · intro d cs hfreq hne
    exact rank_min hfreq hne
  · intro d w hfreq hne
    obtain ⟨m, hm, hmem, hall⟩ := rank_min hfreq hne
    exact ⟨m, hm, hmem, hall⟩

/-- Witness for C4 at a concrete equal-frequency candidate list whose
lexicographic minimum is not the first element. -/
theorem c4_tie_break_witness :
    ∃ m, rank [("cat", 5), ("cot", 5)] ["cot", "cat"] = some m ∧
      m ∈ (["cot", "cat"] : List String) ∧
      ∀ c ∈ (["cot", "cat"] : List String), c = m ∨ strLt m c = true :=
  c4_tie_break.1 [("cat", 5), ("cot", 5)] ["cot", "cat"] (by decide) (by decide)

/-- C5 counterexample: the mixed run of an ASCII apostrophe followed by
a curly quote is a run of two apostrophe-like characters, yet
fix_special_cases leaves it unchanged and records no fix, while the
claim requires it to collapse to a single right quote. -/
theorem c5_counterexample :
    fix_special_cases "don'’t" = ("don'’t", []) ∧
    ("don'’t" : String) ≠ "don’t" := by
  constructor
  · rfl
  · decide

/-- C5 amended: the fixer collapses runs of two or more curly single
quotes to ’ and then runs of two or more ASCII apostrophes to ’ (mixed
runs are not collapsed), per whitespace-delimited segment, recording
one fix per changed segment; in particular the input don’’t yields the
quote fix (don’’t, don’t) in all_fixes for every dictionary. -/
theorem c5_quote_collapse (d : Dict) :
    fix_special_cases "don’’t" = ("don’t", [("don’’t", "don’t")]) ∧
    ("don’’t", "don’t") ∈ (correct_words d "don’’t").all_fixes := by
  refine ⟨rfl, ?_⟩
  rw [correct_words_fixes]
  apply List.mem_append_left
  show ("don’’t", "don’t") ∈ (fix_special_cases "don’’t").2
  rw [show (fix_special_cases "don’’t").2 = [("don’’t", "don’t")] from rfl]
  exact List.mem_cons_self _ _

/-- C6: normalization collapses whitespace, lowercases, replaces
non-letters by spaces and splits, in this order; consequently the
input Hello, World!! with dictionary hello, world normalizes to the
tokens hello and world and is corrected to hello world with no
mistakes. -/
theorem c6_normalization :
    tokensOf "Hello, World!!" =
      split_words (to_lowercase (clean_spaces (fix_special_cases "Hello, World!!").1)) ∧
    tokensOf "Hello, World!!" = ["hello", "world"] ∧
    correct_words [("hello", 1), ("world", 1)] "Hello, World!!" =
      { corrected_text := "hello world", mistake_count := 0,
        misspelled := [], all_fixes := [] } := by
  refine ⟨rfl, rfl, ?_⟩
  rfl

/-- Invariant carried by the accumulator of loadLines: entries are
nonempty, carry no uppercase ASCII letter, and are pairwise distinct. -/
def LoadInv (acc : List String) : Prop :=
  (∀ w ∈ acc, w ≠ "" ∧ ∀ c ∈ w.data, ¬(65 ≤ c.toNat ∧ c.toNat ≤ 90)) ∧ acc.Nodup

theorem addWord_inv {acc : List String} {w : String} (h : LoadInv acc)
    (hw : w ≠ "" ∧ ∀ c ∈ w.data, ¬(65 ≤ c.toNat ∧ c.toNat ≤ 90)) :
    LoadInv (addWord acc w) := by
  rw [addWord]
  by_cases hmem : w ∈ acc
  · rw [if_pos hmem]
    exact h
  · rw [if_neg hmem]
    constructor
    · intro v hv
      rcases List.mem_append.mp hv with hv | hv
      · exact h.1 v hv
      · rw [List.mem_singleton.mp hv]
        exact hw
    · exact h.2.append (List.nodup_singleton w)
        (by simpa [List.disjoint_singleton] using hmem)

theorem loadLines_inv :
    ∀ (rest acc : List String), LoadInv acc → LoadInv (loadLines acc rest) := by
  intro rest
  induction rest with
  | nil => intro acc h; exact h
  | cons line rest ih =>
    intro acc h
    rw [loadLines]
    apply ih
    by_cases hne : (⟨(pystrip line.data).map Char.toLower⟩ : String) ≠ ""
    · rw [if_pos hne]
      refine addWord_inv h ⟨hne, ?_⟩
      intro c hc
      obtain ⟨b, _, hbe⟩ := List.mem_map.mp hc
      exact hbe ▸ toLower_notUpper b
    · rw [if_neg hne]
      exact h

/-- C8 counterexample: the dictionary line abc123 survives loading
unchanged, so a loaded entry may contain the non-letter character 1,
contradicting the claimed letters-only invariant. -/
theorem c8_counterexample :
    load_dictionary (some ["abc123"]) = ["abc123"] ∧
    '1' ∈ ("abc123" : String).data ∧ isAsciiAlpha '1' = false := by
  refine ⟨rfl, by decide, by decide⟩

/-- C8 amended: every entry of a loaded Dictionary is nonempty,
contains no uppercase ASCII letter (each line is trimmed and
lowercased, empty lines are skipped), and duplicates collapse to a
single entry; entries may however contain non-letter characters. -/
theorem c8_load_invariant (lines : List String) :
    (∀ w ∈ load_dictionary (some lines),
      w ≠ "" ∧ ∀ c ∈ w.data, ¬(65 ≤ c.toNat ∧ c.toNat ≤ 90)) ∧
    (load_dictionary (some lines)).Nodup := by
  have h := loadLines_inv lines [] ⟨by simp, List.nodup_nil⟩
  exact ⟨h.1, h.2⟩

/-- Witness for C8 at a concrete dictionary source. -/
theorem c8_load_invariant_witness :
    ("dog" ≠ "" ∧ ∀ c ∈ ("dog" : String).data, ¬(65 ≤ c.toNat ∧ c.toNat ≤ 90)) ∧
    (load_dictionary (some ["Dog", " dog ", ""])).Nodup :=
  ⟨(c8_load_invariant ["Dog", " dog ", ""]).1 "dog" (by decide),
    (c8_load_invariant ["Dog", " dog ", ""]).2⟩

theorem tokensOf_single {w : String} (hne : w.data ≠ [])
    (hcl : ∀ c ∈ w.data, isLowerAlpha c = true) :
    tokensOf w = [w] ∧ fix_special_cases w = (w, []) := by
  have hclean : CleanToks [w.data] := by
    intro v hv
    rw [List.mem_singleton] at hv
    subst hv
    exact ⟨hne, hcl⟩
  have h := roundTrip hclean
  have hw : (⟨joinSp [w.data]⟩ : String) = w := rfl
  rw [hw] at h
  refine ⟨?_, h.1⟩
  rw [h.2]
  rfl

/-- C3 counterexample: with dictionary cat and cot both at frequency 1,
the token cbt is not in the dictionary, cot is in the dictionary and is
exactly one substitution away from cbt with nothing closer, yet the
engine corrects cbt to cat, not to cot. -/
theorem c3_counterexample :
    dContains [("cat", 1), ("cot", 1)] "cbt" = false ∧
    dContains [("cat", 1), ("cot", 1)] "cot" = true ∧
    ("cot" : String).data ∈ edits1 ("cbt" : String).data ∧
    (correct_words [("cat", 1), ("cot", 1)] "cbt").corrected_text ≠ "cot" := by
  refine ⟨rfl, rfl, by decide, by decide⟩

/-- C3 amended: for every dictionary D and nonempty all-lowercase token
w not in D whose distance-1 candidate set is exactly the single
nonempty word t, correcting the single-word text w yields
corrected_text t, one mistake, misspelled set containing w, and the
single Fix (w, t). -/
theorem c3_single_edit (d : Dict) (w t : String)
    (hne : w.data ≠ [])
    (hcl : ∀ c ∈ w.data, isLowerAlpha c = true)
    (hnd : dContains d w = false)
    (hk : known d (edits1 w.data) = [t])
    (htne : t ≠ "") :
    correct_words d w =
      { corrected_text := t, mistake_count := 1,
        misspelled := [w], all_fixes := [(w, t)] } := by
  obtain ⟨htok, hfix⟩ := tokensOf_single hne hcl
  have htmem : t ∈ known d (edits1 w.data) := by
    rw [hk]
    exact List.mem_cons_self _ _
  have htcon : dContains d t = true := (known_mem htmem).2
  have htw : t ≠ w := by
    intro he
    subst he
    rw [hnd] at htcon
    exact Bool.false_ne_true htcon
  have hcand : candidates d w = [t] := by
    rw [candidates]
    simp only [hk]
    rw [if_pos (by simp)]
  have hcor : correction d w = some t := by
    rw [correction, hcand]
    rfl
  have hunk : unknown d [w] = [w] := by
    rw [unknown]
    rw [List.filter_cons_of_pos (by simp [hnd])]
    rw [List.filter_nil]
    exact List.dedup_cons_of_not_mem (List.not_mem_nil w)
  have hct : correctToken d [w] w = (t, some (w, t)) := by
    rw [correctToken_some (List.mem_cons_self _ _) hcor, if_pos ⟨htne, htw⟩]
  have hloop : correctLoop d [w] [w] = ([t], [(w, t)]) := by
    simp only [correctLoop, hct, List.append_nil]
  have hjw : join_words [t] = t := rfl
  show correct_words d w = _
  simp only [correct_words, htok, hfix, hunk, hloop, hjw]
  simp

/-- Witness for C3 amended at the dictionary containing only cot. -/
theorem c3_single_edit_witness :
    correct_words [("cot", 1)] "cbt" =
      { corrected_text := "cot", mistake_count := 1,
        misspelled := ["cbt"], all_fixes := [("cbt", "cot")] } :=
  c3_single_edit [("cot", 1)] "cbt" "cot" (by decide) (by decide) (by decide)
    (by decide) (by decide)

/-- C9: in every CorrectionResult, all_fixes is exactly the quote-fix
list followed by the spelling-fix list, and every recorded Fix has a
replacement different from its original. -/
theorem c9_fixes_invariant (d : Dict) (raw : String) :
    (correct_words d raw).all_fixes =
      (fix_special_cases raw).2 ++
        (correctLoop d (unknown d (tokensOf raw)) (tokensOf raw)).2 ∧
    ∀ p ∈ (correct_words d raw).all_fixes, p.2 ≠ p.1 := by
  refine ⟨rfl, ?_⟩
  intro p hp
  rw [correct_words_fixes] at hp
  rcases List.mem_append.mp hp with hp | hp
  · exact fixLoop_snd_ne (wsplit raw.data) p hp
  · obtain ⟨v, hv, hsome⟩ := correctLoop_snd (tokensOf raw) p hp
    exact correctToken_snd_ne hsome

/-- Witness for C9 at the fix list produced for the input don’’t. -/
theorem c9_fixes_invariant_witness :
    ("don’’t", "don’t") ∈ (correct_words [("don", 1), ("t", 1)] "don’’t").all_fixes ∧
    ("don’t" : String) ≠ "don’’t" :=
  ⟨by decide,
    (c9_fixes_invariant [("don", 1), ("t", 1)] "don’’t").2 ("don’’t", "don’t") (by decide)⟩

theorem correctToken_cases (d : Dict) (ws : List String) (w : String) :
    ((correctToken d (unknown d ws) w).1 = w ∨
      correction d w = some ((correctToken d (unknown d ws) w).1)) ∧
    (dContains d w = true → (correctToken d (unknown d ws) w).1 = w) ∧
    (correction d w = none → (correctToken d (unknown d ws) w).1 = w) := by
  by_cases hm : w ∈ unknown d ws
  · cases hcor : correction d w with
    | none =>
      rw [correctToken_none hm hcor]
      exact ⟨Or.inl rfl, fun _ => rfl, fun _ => rfl⟩
    | some c =>
      by_cases hg : c ≠ "" ∧ c ≠ w
      · rw [correctToken_some hm hcor, if_pos hg]
        refine ⟨Or.inr rfl, ?_, ?_⟩
        · intro hcon
          exact absurd hcon (by simp [(unknown_mem.mp hm).2])
        · intro hnone
          exact absurd hnone (by simp)
      · rw [correctToken_some hm hcor, if_neg hg]
        exact ⟨Or.inl rfl, fun _ => rfl, fun _ => rfl⟩
  · rw [correctToken_not_mis hm]
    exact ⟨Or.inl rfl, fun _ => rfl, fun _ => rfl⟩

/-- C10: the corrected text splits back into exactly one output token
per normalized input token, in order; each output token is the input
token or its chosen correction, and a token that is in the dictionary
or has no accepted correction passes through unchanged. -/
theorem c10_token_preservation (d : Dict) (raw : String) :
    pysplit (correct_words d raw).corrected_text = outTokens d raw ∧
    (outTokens d raw).length = (tokensOf raw).length ∧
    ∀ i, i < (tokensOf raw).length → TokOk d raw i := by
  have hclean := outTokens_clean d raw
  refine ⟨?_, ?_, ?_⟩
  · rw [correct_words_text]
    exact pysplit_join hclean
  · rw [outTokens, correctLoop_fst, List.length_map]
  · intro i hi
    have hmap : outTokens d raw =
        (tokensOf raw).map
          (fun w => (correctToken d (unknown d (tokensOf raw)) w).1) := by
      rw [outTokens, correctLoop_fst]
    have hgetin : (tokensOf raw).getD i "" = (tokensOf raw)[i] :=
      List.getD_eq_getElem _ _ hi
    have hgetout : (outTokens d raw).getD i "" =
        (correctToken d (unknown d (tokensOf raw)) ((tokensOf raw)[i])).1 := by
      rw [hmap, List.getD_eq_getElem _ _ (by simpa using hi), List.getElem_map]
    rw [TokOk, hgetin, hgetout]
    exact correctToken_cases d (tokensOf raw) ((tokensOf raw)[i])

/-- Witness for C10 at the single-token input cbt with dictionary cat. -/
theorem c10_token_preservation_witness :
    0 < (tokensOf "cbt").length ∧ TokOk [("cat", 1)] "cbt" 0 :=
  ⟨by decide, (c10_token_preservation [("cat", 1)] "cbt").2.2 0 (by decide)⟩

/-- C7: when every token of the corrected text is in the dictionary or
has no candidate, correcting the corrected text again with the same
dictionary returns the same corrected text. -/
theorem c7_idempotent (d : Dict) (raw : String)
    (h : ∀ t ∈ pysplit (correct_words d raw).corrected_text,
      dContains d t = true ∨ candidates d t = []) :
    (correct_words d (correct_words d raw).corrected_text).corrected_text =
      (correct_words d raw).corrected_text := by
  have hclean := outTokens_clean d raw
  have hsplit : pysplit (correct_words d raw).corrected_text = outTokens d raw := by
    rw [correct_words_text]
    exact pysplit_join hclean
  rw [hsplit] at h
  have hTeq : (correct_words d raw).corrected_text = join_words (outTokens d raw) :=
    correct_words_text d raw
  have htok2 : tokensOf ((correct_words d raw).corrected_text) = outTokens d raw := by
    rw [hTeq]
    exact (tokensOf_join hclean).1
  have houter : (correct_words d (correct_words d raw).corrected_text).corrected_text =
      join_words
        (correctLoop d (unknown d (outTokens d raw)) (outTokens d raw)).1 := by
    rw [correct_words_text, outTokens, htok2]
  rw [houter, hTeq, correctLoop_fst]
  have hid : ∀ t ∈ outTokens d raw,
      (correctToken d (unknown d (outTokens d raw)) t).1 = id t := by
    intro t ht
    by_cases hm : t ∈ unknown d (outTokens d raw)
    · rcases h t ht with hc | hc
      · exact absurd hc (by simp [(unknown_mem.mp hm).2])
      · have hcor : correction d t = none := by
          rw [correction, hc]
          rfl
        rw [correctToken_none hm hcor]
        rfl
    · rw [correctToken_not_mis hm]
      rfl
  rw [List.map_congr_left hid, List.map_id]

/-- Witness for C7 at a dictionary containing the input token. -/
theorem c7_idempotent_witness :
    (∀ t ∈ pysplit (correct_words [("hello", 1)] "hello").corrected_text,
        dContains [("hello", 1)] t = true ∨ candidates [("hello", 1)] t = []) ∧
    (correct_words [("hello", 1)]
        (correct_words [("hello", 1)] "hello").corrected_text).corrected_text =
      (correct_words [("hello", 1)] "hello").corrected_text :=
  ⟨by decide, c7_idempotent [("hello", 1)] "hello" (by decide)⟩

end TextCorrector
